import Mathlib

/-!
Verification of the Terraform/OpenTofu README generator core
(block extraction, field parsing, classification, usage rendering),
shallowly embedded from the terraform generator of
`.github/scripts/generate-readme-v2.js`, the current copy of the
generator; the older copy in `.github/scripts/generators/terraform.js`
is identical except that its usage renderers neither sort variables
nor substitute trigger values, and the specification treats such older
variants as superseded.

Strings are modelled as `List Char`; JavaScript string indices become
list positions, and `content[i]`-style iteration from a start index
becomes recursion over `content.drop startIndex`.
-/

namespace TfReadme

/-- Opening brace character, written by code point to keep sources plain. -/
def lbrace : Char := Char.ofNat 123

/-- Closing brace character, written by code point. -/
def rbrace : Char := Char.ofNat 125

/-- Loop body of `parseVariableBlock` from terraform.js: one step per
character, incrementing the brace counter on an opening brace,
decrementing on a closing brace, turning `inBlock` on at the first
opening brace, accumulating characters only while `inBlock`, and
stopping as soon as `inBlock` holds and the counter is zero. -/
def pvbLoop : List Char → Int → Bool → List Char
  | [], _, _ => []
  | c :: rest, braceCount, inBlock =>
    let braceCount' : Int :=
      if c = lbrace then braceCount + 1
      else if c = rbrace then braceCount - 1
      else braceCount
    let inBlock' : Bool := if c = lbrace then true else inBlock
    if inBlock' then
      if braceCount' = 0 then [c]
      else c :: pvbLoop rest braceCount' inBlock'
    else
      pvbLoop rest braceCount' inBlock'

/-- The block extractor `parseVariableBlock(content, startIndex)` of
terraform.js: scans forward from `startIndex` with brace counting and
returns the accumulated block content. -/
def parseVariableBlock (content : List Char) (startIndex : Nat) : List Char :=
  pvbLoop (content.drop startIndex) 0 false

/-- Net brace depth contributed by one character. -/
def braceDelta (c : Char) : Int :=
  if c = lbrace then 1 else if c = rbrace then -1 else 0

/-- Net brace depth of a character list. -/
def depth (l : List Char) : Int := (l.map braceDelta).sum

theorem depth_nil : depth [] = 0 := rfl

theorem depth_cons (c : Char) (l : List Char) :
    depth (c :: l) = braceDelta c + depth l := by
  simp [depth]

theorem depth_append (a b : List Char) :
    depth (a ++ b) = depth a + depth b := by
  simp [depth]

/-- Once the scanner is inside a block, its output is a prefix of the
remaining input: characters are appended consecutively until the stop
condition fires or input runs out. -/
theorem pvbLoop_take (l : List Char) :
    ∀ bc : Int, ∃ m : Nat, pvbLoop l bc true = l.take m := by
  induction l with
  | nil => intro bc; exact ⟨0, rfl⟩
  | cons c rest ih =>
      intro bc
      by_cases h0 : (if c = lbrace then bc + 1
          else if c = rbrace then bc - 1 else bc) = 0
      · refine ⟨1, ?_⟩
        simp [pvbLoop, h0]
      · obtain ⟨m, hm⟩ := ih (if c = lbrace then bc + 1
          else if c = rbrace then bc - 1 else bc)
        refine ⟨m + 1, ?_⟩
        simp [pvbLoop, h0, hm]

/-- While not yet inside a block, a character other than an opening
brace is skipped entirely (it is neither accumulated nor a stop). -/
theorem pvbLoop_skip (c : Char) (rest : List Char) (bc : Int)
    (hc : c ≠ lbrace) :
    pvbLoop (c :: rest) bc false =
      pvbLoop rest (bc + braceDelta c) false := by
  rcases eq_or_ne c rbrace with hr | hr
  · subst hr
    simp [pvbLoop, braceDelta, hc, sub_eq_add_neg]
  · simp [pvbLoop, braceDelta, hc, hr]

/-- Entering a block: at an opening brace the scanner either stops at
once (counter already back to zero) or accumulates the brace and goes
on inside the block. -/
theorem pvbLoop_enter (rest : List Char) (bc : Int) :
    pvbLoop (lbrace :: rest) bc false =
      (if bc + 1 = 0 then [lbrace] else lbrace :: pvbLoop rest (bc + 1) true) := by
  by_cases h : bc + 1 = 0 <;> simp [pvbLoop, h]

/-- Before the first opening brace nothing is accumulated: the scan on
any input equals the scan on the input with its brace-free prefix
dropped, with the counter advanced by that prefix's depth. -/
theorem pvbLoop_false_dropWhile (l : List Char) :
    ∀ bc : Int, pvbLoop l bc false =
      pvbLoop (l.dropWhile (fun c => c ≠ lbrace))
        (bc + depth (l.takeWhile (fun c => c ≠ lbrace))) false := by
  induction l with
  | nil => intro bc; rfl
  | cons c rest ih =>
      intro bc
      by_cases hc : c = lbrace
      · subst hc
        simp [List.dropWhile_cons, List.takeWhile_cons, depth_nil]
      · rw [pvbLoop_skip c rest bc hc]
        rw [ih (bc + braceDelta c)]
        simp only [List.dropWhile_cons, List.takeWhile_cons, hc]
        rw [if_pos (by simpa using hc), if_pos (by simpa using hc)]
        rw [depth_cons]
        ring_nf

/-- C10: for every input text and every start index (not only one
pointing at an opening brace), the block extractor terminates and
returns a string; the returned block is a prefix of the suffix that
starts at the first opening brace at or after the start index, so
characters between the start index and that first opening brace are
never included; and on input containing no opening brace at all (here:
any input with its opening braces filtered out) the extractor returns
the empty string. -/
theorem parseVariableBlock_safe (content : List Char) (startIndex : Nat) :
    (∃ m : Nat, parseVariableBlock content startIndex =
      ((content.drop startIndex).dropWhile (fun c => c ≠ lbrace)).take m) ∧
    parseVariableBlock (content.filter (fun c => c ≠ lbrace)) startIndex = [] := by
  constructor
  · unfold parseVariableBlock
    rw [pvbLoop_false_dropWhile]
    rcases h : (content.drop startIndex).dropWhile (fun c => c ≠ lbrace) with _ | ⟨c, tl⟩
    · exact ⟨0, rfl⟩
    · have hc : c = lbrace := by
        have := List.head_dropWhile_not (fun c => c ≠ lbrace)
          (content.drop startIndex)
        rw [h] at this
        simpa using this (by simp)
      subst hc
      rw [pvbLoop_enter]
      by_cases h0 : depth ((content.drop startIndex).takeWhile
          (fun c => c ≠ lbrace)) + 1 = 0
      · rw [if_pos (by omega)]
        exact ⟨1, rfl⟩
      · rw [if_neg (by omega)]
        obtain ⟨m, hm⟩ := pvbLoop_take tl
          (0 + depth ((content.drop startIndex).takeWhile (fun c => c ≠ lbrace)) + 1)
        exact ⟨m + 1, by rw [hm]; rfl⟩
  · unfold parseVariableBlock
    rw [pvbLoop_false_dropWhile]
    have hnone : ∀ c ∈ (content.filter (fun c => c ≠ lbrace)).drop startIndex,
        c ≠ lbrace := by
      intro c hcmem
      have := List.mem_filter.mp (List.mem_of_mem_drop hcmem)
      simpa using this.2
    rw [List.dropWhile_eq_nil_iff.mpr (by intro x hx; simpa using hnone x hx)]
    rfl

/-- The counter update of one scanner step equals `braceDelta`. -/
theorem step_eq (c : Char) (bc : Int) :
    (if c = lbrace then bc + 1 else if c = rbrace then bc - 1 else bc) =
      bc + braceDelta c := by
  unfold braceDelta
  by_cases h1 : c = lbrace
  · simp [h1]
  · by_cases h2 : c = rbrace
    · subst h2
      simp [h1, sub_eq_add_neg]
    · simp [h1, h2]

/-- Unfolding of one scanner step while already inside a block. -/
theorem pvbLoop_cons_true (c : Char) (rest : List Char) (bc : Int) :
    pvbLoop (c :: rest) bc true =
      (if bc + braceDelta c = 0 then [c]
       else c :: pvbLoop rest (bc + braceDelta c) true) := by
  rw [pvbLoop]
  simp only [step_eq, ite_self, if_pos]

/-- Inside a block, as long as the counter stays strictly positive over
every prefix of a segment, the scanner accumulates the whole segment
and continues after it with the counter advanced by its depth. -/
theorem pvbLoop_through (inner : List Char) :
    ∀ (rest : List Char) (bc : Int),
      (∀ n ≤ inner.length, 0 < bc + depth (inner.take n)) →
      pvbLoop (inner ++ rest) bc true =
        inner ++ pvbLoop rest (bc + depth inner) true := by
  induction inner with
  | nil => intro rest bc _; simp [depth_nil]
  | cons c tl ih =>
      intro rest bc hpos
      have h1 : 0 < bc + braceDelta c := by
        have := hpos 1 (by simp)
        simpa [List.take_succ_cons, depth_cons, depth_nil] using this
      show pvbLoop (c :: (tl ++ rest)) bc true = _
      rw [pvbLoop_cons_true, if_neg (by omega)]
      rw [ih rest (bc + braceDelta c) ?_]
      · simp [depth_cons]
        ring_nf
      · intro n hn
        have := hpos (n + 1) (by simpa using Nat.succ_le_succ hn)
        simpa [List.take_succ_cons, depth_cons, add_assoc] using this

/-- If the counter never returns to zero on any nonempty prefix, the
scanner consumes and accumulates the entire remaining input. -/
theorem pvbLoop_no_stop (l : List Char) :
    ∀ bc : Int,
      (∀ n, 1 ≤ n → n ≤ l.length → bc + depth (l.take n) ≠ 0) →
      pvbLoop l bc true = l := by
  induction l with
  | nil => intro bc _; rfl
  | cons c tl ih =>
      intro bc hnz
      have h1 : bc + braceDelta c ≠ 0 := by
        have := hnz 1 (by omega) (by simp)
        simpa [List.take_succ_cons, depth_cons, depth_nil] using this
      rw [pvbLoop_cons_true, if_neg h1]
      rw [ih (bc + braceDelta c) ?_]
      intro n hn hlen
      have := hnz (n + 1) (by omega) (by simpa using Nat.succ_le_succ hlen)
      simpa [List.take_succ_cons, depth_cons, add_assoc] using this

/-- A brace-balanced segment: zero net depth, and no prefix closes more
braces than it has opened. -/
def Balanced (l : List Char) : Prop :=
  depth l = 0 ∧ ∀ n, n ≤ l.length → 0 ≤ depth (l.take n)

instance (l : List Char) : Decidable (Balanced l) := by
  unfold Balanced
  infer_instance

/-- Lists whose members all satisfy a predicate are passed over whole
by `takeWhile`, leaving the first failing element at the head of
`dropWhile`. -/
theorem takeWhile_all_append (p : Char → Bool) (a : List Char) (b : Char)
    (t : List Char) (ha : ∀ c ∈ a, p c) (hb : ¬ p b) :
    (a ++ b :: t).takeWhile p = a ∧ (a ++ b :: t).dropWhile p = b :: t := by
  induction a with
  | nil => simp [List.takeWhile_cons, List.dropWhile_cons, hb]
  | cons c cs ih =>
      have hc : p c := ha c (by simp)
      have ih' := ih (fun x hx => ha x (by simp [hx]))
      simp [List.takeWhile_cons, List.dropWhile_cons, hc, ih'.1, ih'.2]

/-- C2: for every text and every start index pointing at an opening
brace, the block extractor returns the substring from that opening
brace through its matching closing brace inclusive; in particular a
block whose interior is any balanced segment — including arbitrarily
nested balanced brace pairs such as a validation sub-block — is
returned in full, with no early termination. -/
theorem parseVariableBlock_matched (pre inner rest : List Char)
    (h : Balanced inner) :
    parseVariableBlock (pre ++ (lbrace :: inner ++ rbrace :: rest)) pre.length =
      lbrace :: inner ++ [rbrace] := by
  unfold parseVariableBlock
  rw [List.drop_left]
  rw [List.cons_append, pvbLoop_enter]
  rw [if_neg (by omega)]
  rw [pvbLoop_through inner (rbrace :: rest) (0 + 1) ?_]
  · rw [h.1]
    have hclose : pvbLoop (rbrace :: rest) (0 + 1 + 0) true = [rbrace] := by
      rw [pvbLoop_cons_true]
      rw [if_pos (by unfold braceDelta; norm_num [show rbrace ≠ lbrace from by decide])]
    rw [hclose]
    simp
  · intro n hn
    have := h.2 n hn
    omega

/-- Concrete instantiation of C2 on a block containing a nested
balanced validation sub-block. -/
def exPre : List Char := "variable \"a\" ".toList

/-- Interior of the concrete C2 block, holding a nested brace pair. -/
def exInner : List Char := "\n  validation \x7b x \x7d\n".toList

/-- Trailing text after the concrete C2 block. -/
def exRest : List Char := "\nmore text".toList

theorem parseVariableBlock_matched_witness :
    Balanced exInner ∧
    parseVariableBlock (exPre ++ (lbrace :: exInner ++ rbrace :: exRest))
        exPre.length = lbrace :: exInner ++ [rbrace] :=
  ⟨by decide, parseVariableBlock_matched exPre exInner exRest (by decide)⟩

/-- Whitespace per the JavaScript regex class used by the source (the
inputs handled by the repository are ASCII module text, so the further
Unicode space characters of that class are not modelled). -/
def isSpace (c : Char) : Bool := c = ' ' || c = '\t' || c = '\n' || c = '\r'

/-- Word character per the JavaScript word-boundary rule. -/
def isWordChar (c : Char) : Bool := c.isAlpha || c.isDigit || c = '_'

/-- Keyword scanned for by the default-detection regex. -/
def kwDefault : List Char := "default".toList

/-- Keyword opening a validation sub-block. -/
def kwValidation : List Char := "validation".toList

/-- Keyword introducing the condition expression. -/
def kwCondition : List Char := "condition".toList

/-- Keyword terminating the condition expression capture. -/
def kwErrorMessage : List Char := "error_message".toList

/-- Keyword introducing the description field. -/
def kwDescription : List Char := "description".toList

/-- Keyword opening a variable declaration header. -/
def kwVariable : List Char := "variable".toList

/-- Generic leftmost-match search: try a matcher on every suffix from
left to right and return its first hit. This is how a JavaScript
regex match over a string is embedded: the engine returns the match at
the leftmost start position where the whole pattern succeeds. -/
def scanFirst (f : List Char → Option α) : List Char → Option α
  | [] => none
  | c :: rest =>
    match f (c :: rest) with
    | some x => some x
    | none => scanFirst f rest

/-- Equals-sign check after an optional whitespace run, the tail of
the default-detection pattern. -/
def eqAfterSpaces (l : List Char) : Bool :=
  match l.dropWhile isSpace with
  | '=' :: _ => true
  | _ => false

/-- One-position matcher for the default-detection regex: the keyword
`default`, then optional whitespace, then an equals sign. -/
def defaultAt (l : List Char) : Bool :=
  kwDefault.isPrefixOf l && eqAfterSpaces (l.drop kwDefault.length)

/-- Scan of the block for a word-boundary-guarded `default =` match,
carrying the previous character for the word-boundary test. -/
def scanDefault (prev : Option Char) : List Char → Bool
  | [] => false
  | c :: rest =>
    ((match prev with
      | none => true
      | some p => !isWordChar p) && defaultAt (c :: rest)) ||
      scanDefault (some c) rest

/-- The `hasDefault` test of `extractVariables` in terraform.js. -/
def hasDefaultIn (blockContent : List Char) : Bool :=
  scanDefault none blockContent

/-- One-position matcher for `validation` followed by optional
whitespace and an opening brace; on success returns the remainder of
the text after that brace. -/
def valOpenAt (l : List Char) : Option (List Char) :=
  if kwValidation.isPrefixOf l then
    match (l.drop kwValidation.length).dropWhile isSpace with
    | c :: r => if c = lbrace then some r else none
    | [] => none
  else none

/-- One-position matcher for `condition` followed by optional
whitespace and an equals sign; on success returns the remainder after
the equals sign. -/
def condEqAt (l : List Char) : Option (List Char) :=
  if kwCondition.isPrefixOf l then
    match (l.drop kwCondition.length).dropWhile isSpace with
    | '=' :: r => some r
    | _ => none
  else none

/-- Terminator test of the condition capture: a newline, optional
whitespace, then the keyword `error_message`. -/
def boundaryAt (l : List Char) : Bool :=
  match l with
  | '\n' :: r => kwErrorMessage.isPrefixOf (r.dropWhile isSpace)
  | _ => false

/-- Collect characters up to (excluding) the first terminator
position; `none` when no terminator occurs. -/
def scanToBoundary : List Char → Option (List Char)
  | [] => none
  | c :: rest =>
    if boundaryAt (c :: rest) then some []
    else
      match scanToBoundary rest with
      | some cap => some (c :: cap)
      | none => none

/-- Capture of the condition text after the equals sign, transcribing
the greedy whitespace run followed by the non-greedy capture of the
source regex: the engine first consumes the maximal whitespace run,
then extends the capture to the first terminator at or after it; if
none exists it backtracks into the whitespace run, which succeeds
exactly when the run holds a newline and `error_message` starts right
after the run, yielding an empty capture. -/
def condCapture (afterEq : List Char) : Option (List Char) :=
  let run := afterEq.takeWhile isSpace
  let tail := afterEq.drop run.length
  match scanToBoundary tail with
  | some cap => some cap
  | none =>
    if run.contains '\n' && kwErrorMessage.isPrefixOf tail then some []
    else none

/-- The `trim` of JavaScript strings: strip whitespace at both ends. -/
def trimChars (l : List Char) : List Char :=
  ((l.dropWhile isSpace).reverse.dropWhile isSpace).reverse

/-- Condition extraction of `extractVariables` in terraform.js,
transcribing its validation regex: the leftmost `validation` + `{`
position, then (non-greedy) the first following `condition` + `=`,
then the capture up to the newline-anchored `error_message`
terminator, trimmed. For this pattern the backtracking engine's
leftmost-lazy semantics coincide with sequential first-occurrence
searches, because terminator availability only shrinks at later
start positions. Returns `none` exactly when the regex has no match,
in which case the source stores a null validation. -/
def validationCondition (blockContent : List Char) : Option (List Char) :=
  (scanFirst valOpenAt blockContent).bind fun afterBrace =>
    (scanFirst condEqAt afterBrace).bind fun afterEq =>
      (condCapture afterEq).map trimChars

/-- One-position matcher for the description regex: `description`,
optional whitespace, equals sign, optional whitespace, then a
double-quoted nonempty run of non-quote characters. -/
def descrAt (l : List Char) : Option (List Char) :=
  if kwDescription.isPrefixOf l then
    match (l.drop kwDescription.length).dropWhile isSpace with
    | '=' :: r2 =>
      match r2.dropWhile isSpace with
      | '"' :: r3 =>
        let cap := r3.takeWhile (fun c => c ≠ '"')
        if cap.length > 0 then
          match r3.drop cap.length with
          | '"' :: _ => some cap
          | _ => none
        else none
      | _ => none
    | _ => none
  else none

/-- Description extraction of `extractVariables`: the first match's
capture, or the empty string when the regex does not match. -/
def descriptionIn (blockContent : List Char) : List Char :=
  (scanFirst descrAt blockContent).getD []

/-- One parsed variable declaration, as built by `extractVariables` in
terraform.js. The `validation` attribute keeps the parsed condition
expression; the source also stores the validation block's raw text
alongside it, which no claim depends on and which carries no further
information used downstream, so it is not modelled. -/
structure Variable where
  name : List Char
  hasDefault : Bool
  validation : Option (List Char)
  description : List Char
deriving DecidableEq

/-- Field parsing of one extracted block, as `extractVariables` does
per match. -/
def mkVariable (name blockContent : List Char) : Variable :=
  { name := name
    hasDefault := hasDefaultIn blockContent
    validation := validationCondition blockContent
    description := descriptionIn blockContent }

/-- An `isPrefixOf` success yields an append decomposition. -/
theorem prefixOf_exists : ∀ {p l : List Char}, p.isPrefixOf l = true →
    ∃ t, l = p ++ t
  | [], l, _ => ⟨l, rfl⟩
  | a :: as, [], h => by simp [List.isPrefixOf] at h
  | a :: as, b :: bs, h => by
      simp only [List.isPrefixOf, Bool.and_eq_true, beq_iff_eq] at h
      obtain ⟨t, ht⟩ := prefixOf_exists h.2
      exact ⟨t, by simp [h.1, ht]⟩

/-- A list is a prefix of itself followed by anything. -/
theorem prefixOf_append : ∀ (p t : List Char), p.isPrefixOf (p ++ t) = true
  | [], _ => by simp [List.isPrefixOf]
  | a :: as, t => by
      simp only [List.cons_append, List.isPrefixOf, beq_self_eq_true,
        Bool.true_and]
      exact prefixOf_append as t

/-- Head-is-whitespace test, embedding the mandatory first character
of a `\s+` run (the rest of the run is absorbed by `dropWhile`, which
is equivalent because the character after the run is not whitespace in
every pattern that uses it). -/
def headIsSpace (l : List Char) : Bool :=
  match l with
  | c :: _ => isSpace c
  | [] => false

/-- One-position matcher for the variable-header regex: `variable`,
mandatory whitespace, a double-quoted nonempty name, optional
whitespace, then an opening brace. On success returns the name and
the suffix of the text starting at that opening brace (the embedding
of the block-start index). -/
def headerAt (l : List Char) : Option (List Char × List Char) :=
  if kwVariable.isPrefixOf l && headIsSpace (l.drop kwVariable.length) then
    match (l.drop kwVariable.length).dropWhile isSpace with
    | q1 :: r2 =>
      if q1 = '"' then
        match r2.takeWhile (fun c => c ≠ '"') with
        | [] => none
        | n1 :: nt =>
          match r2.drop (n1 :: nt).length with
          | q2 :: r3 =>
            if q2 = '"' then
              match r3.dropWhile isSpace with
              | c :: r4 => if c = lbrace then some (n1 :: nt, c :: r4) else none
              | [] => none
            else none
          | [] => none
      else none
    | [] => none
  else none

/-- A successful header match consumes at least the keyword and one
whitespace character before the returned block-start suffix, so that
suffix is strictly shorter than the scanned text. -/
theorem headerAt_length {l nm br : List Char}
    (h : headerAt l = some (nm, br)) : br.length < l.length := by
  unfold headerAt at h
  split at h
  case isFalse => exact absurd h (by simp)
  case isTrue hguard =>
    have hp : kwVariable.isPrefixOf l = true := by
      exact (Bool.and_eq_true _ _).mp hguard |>.1
    obtain ⟨t, ht⟩ := prefixOf_exists hp
    have hlen8 : l.length = kwVariable.length + t.length := by simp [ht]
    have hkw : kwVariable.length = 8 := by decide
    have hdropt : l.drop kwVariable.length = t := by
      rw [ht, List.drop_left]
    split at h
    case h_2 => exact absurd h (by simp)
    case h_1 q1 r2 heq2 =>
      have hr2 : r2.length + 1 ≤ t.length := by
        have hle : ((l.drop kwVariable.length).dropWhile isSpace).length ≤
            (l.drop kwVariable.length).length :=
          (List.dropWhile_sublist isSpace).length_le
        rw [heq2, hdropt] at hle
        simpa using hle
      split at h
      case isFalse => exact absurd h (by simp)
      case isTrue =>
        split at h
        case h_1 => exact absurd h (by simp)
        case h_2 n1 nt hnmeq =>
          split at h
          case h_2 => exact absurd h (by simp)
          case h_1 q2 r3 heq3 =>
            have hr3 : r3.length + 1 ≤ r2.length := by
              have := congrArg List.length heq3
              simp at this
              omega
            split at h
            case isFalse => exact absurd h (by simp)
            case isTrue =>
              split at h
              case h_2 => exact absurd h (by simp)
              case h_1 c r4 heq4 =>
                have hr4 : r4.length + 1 ≤ r3.length := by
                  have hle : (r3.dropWhile isSpace).length ≤ r3.length :=
                  (List.dropWhile_sublist isSpace).length_le
                  rw [heq4] at hle
                  simpa using hle
                split at h
                case isFalse => exact absurd h (by simp)
                case isTrue =>
                  have hbr : br = c :: r4 := by
                    simp only [Option.some.injEq, Prod.mk.injEq] at h
                    exact h.2.symm
                  subst hbr
                  simp only [List.length_cons]
                  omega

/-- Fuel-indexed discovery loop of `extractVariables`, embedding the
global-regex `exec` iteration: find the leftmost header match, emit
its name and block-start suffix, and continue searching right after
the matched header (the engine's `lastIndex`, which sits just past the
opening brace). Each step shortens the text, so fuel equal to the text
length always suffices; the fuel only makes the recursion
structural. -/
def extractLoopF : Nat → List Char → List (List Char × List Char)
  | 0, _ => []
  | _ + 1, [] => []
  | fuel + 1, c :: rest =>
    match headerAt (c :: rest) with
    | some (nm, br) => (nm, br) :: extractLoopF fuel (br.drop 1)
    | none => extractLoopF fuel rest

/-- Any two sufficient fuels agree. -/
theorem extractLoopF_congr : ∀ (f1 f2 : Nat) (l : List Char),
    l.length ≤ f1 → l.length ≤ f2 → extractLoopF f1 l = extractLoopF f2 l := by
  intro f1
  induction f1 with
  | zero =>
      intro f2 l h1 _
      have : l = [] := List.length_eq_zero.mp (Nat.le_zero.mp h1)
      subst this
      cases f2 <;> rfl
  | succ f ih =>
      intro f2 l h1 h2
      match l with
      | [] => cases f2 <;> rfl
      | c :: rest =>
          match f2 with
          | 0 => exact absurd h2 (by simp)
          | g + 1 =>
              show extractLoopF (f + 1) (c :: rest) = extractLoopF (g + 1) (c :: rest)
              rcases hh : headerAt (c :: rest) with _ | ⟨nm, br⟩
              · simp only [extractLoopF, hh]
                exact ih g rest (by simpa using Nat.le_of_succ_le_succ h1)
                  (by simpa using Nat.le_of_succ_le_succ h2)
              · have hlt := headerAt_length hh
                have hbr : (br.drop 1).length ≤ br.length := by
                  simp
                simp only [extractLoopF, hh]
                refine congrArg _ (ih g (br.drop 1) ?_ ?_)
                · simp at hlt h1 ⊢
                  omega
                · simp at hlt h2 ⊢
                  omega

/-- Discovery loop at its canonical fuel. -/
def extractLoop (l : List Char) : List (List Char × List Char) :=
  extractLoopF l.length l

/-- Step equation of the discovery loop. -/
theorem extractLoop_cons (c : Char) (rest : List Char) :
    extractLoop (c :: rest) =
      (match headerAt (c :: rest) with
       | some (nm, br) => (nm, br) :: extractLoop (br.drop 1)
       | none => extractLoop rest) := by
  show extractLoopF (rest.length + 1) (c :: rest) = _
  rcases hh : headerAt (c :: rest) with _ | ⟨nm, br⟩
  · simp only [extractLoopF, hh]
    exact extractLoopF_congr rest.length rest.length rest le_rfl le_rfl
  · have hlt := headerAt_length hh
    simp only [extractLoopF, hh]
    refine congrArg _ (extractLoopF_congr rest.length (br.drop 1).length
      (br.drop 1) ?_ le_rfl)
    simp at hlt ⊢
    omega

/-- The `extractVariables` of terraform.js: discover headers, extract
each one's balanced-brace block starting at its opening brace, and
parse fields from it. -/
def extractVariables (content : List Char) : List Variable :=
  (extractLoop content).map (fun p => mkVariable p.1 (pvbLoop p.2 0 false))

/-- Category filters of `prepareContext` in terraform.js: no default
and no validation. -/
def requiredVars (vs : List Variable) : List Variable :=
  vs.filter (fun v => !v.hasDefault && !v.validation.isSome)

/-- Category filter: no default, with validation. -/
def triggerVars (vs : List Variable) : List Variable :=
  vs.filter (fun v => !v.hasDefault && v.validation.isSome)

/-- Category filter: default present, with validation. -/
def conditionalVars (vs : List Variable) : List Variable :=
  vs.filter (fun v => v.hasDefault && v.validation.isSome)

/-- Category filter: default present, no validation. -/
def optionalVars (vs : List Variable) : List Variable :=
  vs.filter (fun v => v.hasDefault && !v.validation.isSome)

/-- Placeholder value derived from a declaration name in
`generateReadme`: the name with every underscore replaced by a hyphen,
prefixed by a fixed marker. -/
def placeholderValue (name : List Char) : List Char :=
  "your-".toList ++ name.map (fun c => if c = '_' then '-' else c)

/-- The `padEnd` of JavaScript strings: pad with spaces on the right
up to the requested width, leaving longer strings unchanged. -/
def padEnd (l : List Char) (n : Nat) : List Char :=
  l ++ List.replicate (n - l.length) ' '

/-- Maximum name length over a declaration list, embedding the
spread-`Math.max` of `generateReadme` (only applied to nonempty
lists there, where the fold below agrees with it). -/
def maxNameLength (vs : List Variable) : Nat :=
  vs.foldr (fun v acc => max v.name.length acc) 0

/-- One rendered assignment line of the basic-usage block. -/
def usageLine (maxLen : Nat) (v : Variable) : List Char :=
  "  ".toList ++ padEnd v.name maxLen ++ " = \"".toList ++
    placeholderValue v.name ++ "\"".toList

/-- The `join` with newline separator of JavaScript arrays. -/
def joinNewline (ls : List (List Char)) : List Char :=
  (List.intersperse ['\n'] ls).flatten

instance : DecidableRel (fun a b : Variable => a.name ≤ b.name) :=
  fun a b => inferInstanceAs (Decidable (a.name ≤ b.name))

instance : IsTotal Variable (fun a b => a.name ≤ b.name) :=
  ⟨fun a b => le_total a.name b.name⟩

instance : IsTrans Variable (fun a b => a.name ≤ b.name) :=
  ⟨fun _ _ _ h1 h2 => le_trans h1 h2⟩

/-- The stable `sort((a, b) => a.name.localeCompare(b.name))` of
`generateReadme` in generate-readme-v2.js, embedded as a stable
insertion sort by lexicographic code-point order on names
(`localeCompare` agrees with code-point comparison on the lowercase
ASCII letters and underscores the generator's variable names use). -/
def sortVarsByName (vs : List Variable) : List Variable :=
  List.insertionSort (fun a b => a.name ≤ b.name) vs

/-- Variable set of the basic-usage example in `generateReadme` of
generate-readme-v2.js: the required variables and the trigger
variables, sorted alphabetically by name. -/
def basicUsageVars (vs : List Variable) : List Variable :=
  sortVarsByName (requiredVars vs ++ triggerVars vs)

/-- The basic-usage variables block of `generateReadme`: empty for an
empty variable set, otherwise one aligned placeholder line per
variable, newline-separated, wrapped in leading and trailing
newlines. -/
def basicUsageBlock (buVars : List Variable) : List Char :=
  if buVars.length > 0 then
    '\n' :: joinNewline (buVars.map (usageLine (maxNameLength buVars))) ++ ['\n']
  else []

/-- Sum of the four category-filter lengths equals the input length:
the two boolean predicates split every declaration into exactly one
filter. -/
theorem classify_length (vs : List Variable) :
    (requiredVars vs).length + (triggerVars vs).length +
      (conditionalVars vs).length + (optionalVars vs).length = vs.length := by
  induction vs with
  | nil => rfl
  | cons v t ih =>
      unfold requiredVars triggerVars conditionalVars optionalVars at ih ⊢
      rcases hd : v.hasDefault <;> rcases hv : v.validation with _ | c <;>
        simp [List.filter_cons, hd, hv] at ih ⊢ <;> omega

/-- C1: classification applies the two-predicate decision table —
no default and no validation gives Required, no default with
validation gives Trigger, default with validation gives Conditional,
default without validation gives Optional — and the four lists
partition the input exhaustively and disjointly, with the length sum
equal to the input length and each list preserving the input's
original order (each is a sublist of the input). -/
theorem classify_decision_table (vs : List Variable) (v : Variable) :
    ((requiredVars vs).length + (triggerVars vs).length +
      (conditionalVars vs).length + (optionalVars vs).length = vs.length) ∧
    (v ∈ requiredVars vs ↔ v ∈ vs ∧ v.hasDefault = false ∧ v.validation = none) ∧
    (v ∈ triggerVars vs ↔ v ∈ vs ∧ v.hasDefault = false ∧ v.validation ≠ none) ∧
    (v ∈ conditionalVars vs ↔ v ∈ vs ∧ v.hasDefault = true ∧ v.validation ≠ none) ∧
    (v ∈ optionalVars vs ↔ v ∈ vs ∧ v.hasDefault = true ∧ v.validation = none) ∧
    ((v ∈ requiredVars vs ∨ v ∈ triggerVars vs ∨ v ∈ conditionalVars vs ∨
      v ∈ optionalVars vs) ↔ v ∈ vs) ∧
    (¬ (v ∈ requiredVars vs ∧ v ∈ triggerVars vs)) ∧
    (¬ (v ∈ requiredVars vs ∧ v ∈ conditionalVars vs)) ∧
    (¬ (v ∈ requiredVars vs ∧ v ∈ optionalVars vs)) ∧
    (¬ (v ∈ triggerVars vs ∧ v ∈ conditionalVars vs)) ∧
    (¬ (v ∈ triggerVars vs ∧ v ∈ optionalVars vs)) ∧
    (¬ (v ∈ conditionalVars vs ∧ v ∈ optionalVars vs)) ∧
    List.Sublist (requiredVars vs) vs ∧ List.Sublist (triggerVars vs) vs ∧
    List.Sublist (conditionalVars vs) vs ∧ List.Sublist (optionalVars vs) vs := by
  have hreq : v ∈ requiredVars vs ↔
      v ∈ vs ∧ v.hasDefault = false ∧ v.validation = none := by
    simp [requiredVars, List.mem_filter, Option.isSome_iff_ne_none, and_assoc]
  have htri : v ∈ triggerVars vs ↔
      v ∈ vs ∧ v.hasDefault = false ∧ v.validation ≠ none := by
    simp [triggerVars, List.mem_filter, Option.isSome_iff_ne_none, and_assoc]
  have hcon : v ∈ conditionalVars vs ↔
      v ∈ vs ∧ v.hasDefault = true ∧ v.validation ≠ none := by
    simp [conditionalVars, List.mem_filter, Option.isSome_iff_ne_none, and_assoc]
  have hopt : v ∈ optionalVars vs ↔
      v ∈ vs ∧ v.hasDefault = true ∧ v.validation = none := by
    simp [optionalVars, List.mem_filter, Option.isSome_iff_ne_none, and_assoc]
  refine ⟨classify_length vs, hreq, htri, hcon, hopt, ?_, ?_, ?_, ?_, ?_, ?_, ?_,
    List.filter_sublist vs, List.filter_sublist vs,
    List.filter_sublist vs, List.filter_sublist vs⟩
  · rw [hreq, htri, hcon, hopt]
    constructor
    · rintro (h | h | h | h) <;> exact h.1
    · intro hmem
      rcases hd : v.hasDefault <;> rcases hv : v.validation with _ | c
      · exact Or.inl ⟨hmem, rfl, rfl⟩
      · exact Or.inr (Or.inl ⟨hmem, rfl, by simp⟩)
      · exact Or.inr (Or.inr (Or.inr ⟨hmem, rfl, rfl⟩))
      · exact Or.inr (Or.inr (Or.inl ⟨hmem, rfl, by simp⟩))
  all_goals
    simp only [hreq, htri, hcon, hopt]
    rintro ⟨⟨-, h1, h2⟩, ⟨-, h3, h4⟩⟩
    simp_all

/-- C9: zero parsed declarations (here: the empty text parses to no
declarations) classify into four empty category lists, and the
basic-usage render over them is the empty block; every step is a total
function, so no exception can arise. -/
theorem empty_input_safe :
    extractVariables [] = [] ∧
    requiredVars [] = [] ∧ triggerVars [] = [] ∧
    conditionalVars [] = [] ∧ optionalVars [] = [] ∧
    basicUsageBlock (basicUsageVars []) = [] :=
  ⟨rfl, rfl, rfl, rfl, rfl, rfl⟩

/-- First declaration of the C3 witness: a required variable whose
name sorts lexicographically after the second one, discovered first. -/
def vZeta : Variable :=
  { name := "zeta".toList, hasDefault := false, validation := none,
    description := [] }

/-- Second declaration of the C3 witness. -/
def vAlpha : Variable :=
  { name := "alpha".toList, hasDefault := false, validation := none,
    description := [] }

/-- Every name in a declaration list is bounded by the computed
column width. -/
theorem maxNameLength_ge : ∀ (vs : List Variable), ∀ v ∈ vs,
    v.name.length ≤ maxNameLength vs := by
  intro vs
  induction vs with
  | nil => intro v hv; simp at hv
  | cons w t ih =>
      intro v hv
      rcases List.mem_cons.mp hv with rfl | hv'
      · exact le_max_left _ _
      · exact le_trans (ih v hv') (le_max_right _ _)

/-- The required and trigger filters together are a permutation of the
no-default filter: the two categories split it by the validation
flag. -/
theorem req_trig_perm (vs : List Variable) :
    (requiredVars vs ++ triggerVars vs).Perm
      (vs.filter (fun v => !v.hasDefault)) := by
  induction vs with
  | nil => rfl
  | cons v t ih =>
      unfold requiredVars triggerVars at *
      rcases hd : v.hasDefault <;> rcases hv : v.validation with _ | c <;>
        rw [List.filter_cons, List.filter_cons, List.filter_cons]
      · rw [if_pos (by simp [hd, hv]), if_neg (by simp [hd, hv]),
          if_pos (by simp [hd])]
        exact ih.cons v
      · rw [if_neg (by simp [hd, hv]), if_pos (by simp [hd, hv]),
          if_pos (by simp [hd])]
        exact List.Perm.trans List.perm_middle (ih.cons v)
      · rw [if_neg (by simp [hd]), if_neg (by simp [hd]),
          if_neg (by simp [hd])]
        exact ih
      · rw [if_neg (by simp [hd]), if_neg (by simp [hd]),
          if_neg (by simp [hd])]
        exact ih

/-- Two name-sorted variable lists that are permutations of each other
and carry pairwise-distinct names are equal. -/
theorem sorted_perm_nodup_eq :
    ∀ (l1 l2 : List Variable), l1.Perm l2 →
      List.Sorted (fun a b : Variable => a.name ≤ b.name) l1 →
      List.Sorted (fun a b : Variable => a.name ≤ b.name) l2 →
      (l1.map Variable.name).Nodup → l1 = l2 := by
  intro l1
  induction l1 with
  | nil =>
      intro l2 hp _ _ _
      exact hp.nil_eq
  | cons a t1 ih =>
      intro l2 hp hs1 hs2 hnd
      match l2 with
      | [] => exact absurd hp.symm.nil_eq (by simp)
      | b :: t2 =>
          by_cases hab : a = b
          · subst hab
            have ht := ih t2 (hp.cons_inv)
              (List.sorted_cons.mp hs1).2 (List.sorted_cons.mp hs2).2
              (by simpa using (List.nodup_cons.mp (by simpa using hnd)).2)
            rw [ht]
          · have hamem : a ∈ t2 := by
              have := hp.subset (List.mem_cons_self a t1)
              rcases List.mem_cons.mp this with h | h
              · exact absurd h hab
              · exact h
            have hbmem : b ∈ t1 := by
              have := hp.symm.subset (List.mem_cons_self b t2)
              rcases List.mem_cons.mp this with h | h
              · exact absurd h.symm hab
              · exact h
            have h1 : a.name ≤ b.name := (List.sorted_cons.mp hs1).1 b hbmem
            have h2 : b.name ≤ a.name := (List.sorted_cons.mp hs2).1 a hamem
            have hnames : a.name = b.name := le_antisymm h1 h2
            exfalso
            have hnotin : a.name ∉ t1.map Variable.name :=
              (List.nodup_cons.mp (by simpa using hnd)).1
            exact hnotin (by
              rw [hnames]
              exact List.mem_map_of_mem Variable.name hbmem)

/-- C3: the basic-usage render covers exactly the Required and Trigger
categories (the no-default declarations; never Optional or
Conditional), sorted by declaration name in stable lexicographic
order; each rendered line pads the name to the maximum name length of
the included set and carries the deterministic placeholder derived
from the name; and for declaration sets with distinct names the
rendered block is independent of input discovery order. -/
theorem basicUsage_sorted_render (vs vs' : List Variable) (v : Variable) :
    (v ∈ basicUsageVars vs ↔ v ∈ vs ∧ v.hasDefault = false) ∧
    List.Sorted (fun a b : Variable => a.name ≤ b.name) (basicUsageVars vs) ∧
    (v ∈ basicUsageVars vs →
      v.name.length ≤ maxNameLength (basicUsageVars vs)) ∧
    (usageLine (maxNameLength (basicUsageVars vs)) v =
      "  ".toList ++ padEnd v.name (maxNameLength (basicUsageVars vs)) ++
        " = \"".toList ++ placeholderValue v.name ++ "\"".toList) ∧
    (0 < (basicUsageVars vs).length →
      basicUsageBlock (basicUsageVars vs) =
        '\n' :: joinNewline ((basicUsageVars vs).map
          (usageLine (maxNameLength (basicUsageVars vs)))) ++ ['\n']) ∧
    (vs.Perm vs' → (vs.map Variable.name).Nodup →
      basicUsageBlock (basicUsageVars vs) =
        basicUsageBlock (basicUsageVars vs')) := by
  have hperm : ∀ ws : List Variable, (basicUsageVars ws).Perm
      (ws.filter (fun v => !v.hasDefault)) := fun ws =>
    (List.perm_insertionSort _ _).trans (req_trig_perm ws)
  have hsorted : ∀ ws : List Variable, List.Sorted
      (fun a b : Variable => a.name ≤ b.name) (basicUsageVars ws) := fun ws =>
    List.sorted_insertionSort _ _
  refine ⟨?_, hsorted vs, ?_, rfl, ?_, ?_⟩
  · rw [(hperm vs).mem_iff, List.mem_filter]
    simp
  · intro hv
    exact maxNameLength_ge _ v hv
  · intro hlen
    unfold basicUsageBlock
    rw [if_pos (by simpa using hlen)]
  · intro hp hnd
    have hpp : (basicUsageVars vs).Perm (basicUsageVars vs') :=
      ((hperm vs).trans (hp.filter _)).trans (hperm vs').symm
    have hndvs : ((basicUsageVars vs).map Variable.name).Nodup := by
      have hsub : (vs.filter (fun v => !v.hasDefault)).Sublist vs :=
        List.filter_sublist vs
      have hnd2 : ((vs.filter (fun v => !v.hasDefault)).map
          Variable.name).Nodup := (hsub.map Variable.name).nodup hnd
      exact (((hperm vs).map Variable.name).nodup_iff).mpr hnd2
    rw [sorted_perm_nodup_eq (basicUsageVars vs) (basicUsageVars vs')
      hpp (hsorted vs) (hsorted vs') hndvs]

theorem basicUsage_sorted_render_witness :
    basicUsageBlock (basicUsageVars [vZeta, vAlpha]) =
      '\n' :: joinNewline ((basicUsageVars [vZeta, vAlpha]).map
        (usageLine (maxNameLength (basicUsageVars [vZeta, vAlpha])))) ++
        ['\n'] ∧
    basicUsageBlock (basicUsageVars [vZeta, vAlpha]) =
      basicUsageBlock (basicUsageVars [vAlpha, vZeta]) ∧
    basicUsageBlock (basicUsageVars [vZeta, vAlpha]) =
      '\n' :: ("  alpha = \"your-alpha\"".toList ++
        '\n' :: "  zeta  = \"your-zeta\"".toList) ++ ['\n'] :=
  ⟨(basicUsage_sorted_render [vZeta, vAlpha] [vAlpha, vZeta]
      vZeta).2.2.2.2.1 (by decide),
   (basicUsage_sorted_render [vZeta, vAlpha] [vAlpha, vZeta]
      vZeta).2.2.2.2.2 (by decide) (by decide),
   by decide⟩

/-- Word-boundary test against the character before a match position. -/
def prevOK : Option Char → Bool
  | none => true
  | some p => !isWordChar p

/-- A `default =` occurrence within a text scanned after `prev`: some
split of the text places the keyword `default` right after a prefix
whose last character (or, for the empty prefix, the carried previous
character) is not a word character, with an equals sign after optional
whitespace following the keyword. -/
def OccFrom (prev : Option Char) (block : List Char) : Prop :=
  ∃ a b, block = a ++ (kwDefault ++ b) ∧
    (∀ p, a.getLast? = some p → isWordChar p = false) ∧
    (a = [] → prevOK prev = true) ∧
    eqAfterSpaces b = true

/-- Occurrence of the `default =` token anywhere in a block, per the
word-boundary rule: this is the specification-side reading of the
default-detection regex. -/
def DefaultOccurrence (block : List Char) : Prop := OccFrom none block

/-- The scanning loop finds a match exactly when an occurrence
exists. -/
theorem scanDefault_iff : ∀ (block : List Char) (prev : Option Char),
    scanDefault prev block = true ↔ OccFrom prev block := by
  intro block
  induction block with
  | nil =>
      intro prev
      constructor
      · intro h
        exact absurd h (by simp [scanDefault])
      · rintro ⟨a, b, hsplit, -, -, -⟩
        have := congrArg List.length hsplit
        simp [kwDefault] at this
        omega
  | cons c rest ih =>
      intro prev
      constructor
      · intro h
        simp only [scanDefault, Bool.or_eq_true, Bool.and_eq_true] at h
        rcases h with ⟨hprev, hat⟩ | hrec
        · rw [defaultAt, Bool.and_eq_true] at hat
          obtain ⟨t, ht⟩ := prefixOf_exists hat.1
          refine ⟨[], t, by simpa using ht, by simp, fun _ => ?_, ?_⟩
          · cases prev <;> simpa [prevOK] using hprev
          · have := hat.2
            rwa [ht, List.drop_left] at this
        · obtain ⟨a, b, hsplit, hlast, hnil, heq⟩ := (ih (some c)).mp hrec
          refine ⟨c :: a, b, by simp [hsplit], ?_, by simp, heq⟩
          intro p hp
          match a, hp with
          | [], hp =>
              have hc : p = c := by simpa using hp.symm
              subst hc
              have := hnil rfl
              simpa [prevOK] using this
          | x :: xs, hp =>
              exact hlast p (by simpa using hp)
      · rintro ⟨a, b, hsplit, hlast, hnil, heq⟩
        simp only [scanDefault, Bool.or_eq_true, Bool.and_eq_true]
        match a, hsplit with
        | [], hsplit =>
            refine Or.inl ⟨?_, ?_⟩
            · cases prev with
              | none => rfl
              | some p => simpa [prevOK] using hnil rfl
            · rw [defaultAt, Bool.and_eq_true]
              simp only [List.nil_append] at hsplit
              constructor
              · rw [hsplit]
                exact prefixOf_append kwDefault b
              · rw [hsplit, List.drop_left]
                exact heq
        | c' :: a', hsplit =>
            have hc : c' = c := by simpa using congrArg (List.head? ·) hsplit.symm
            have hrest : rest = a' ++ (kwDefault ++ b) := by
              simpa using congrArg (List.tail ·) hsplit
            refine Or.inr ((ih (some c)).mpr ⟨a', b, hrest, ?_, ?_, heq⟩)
            · intro p hp
              exact hlast p (by
                match a', hp with
                | [], hp => simp at hp
                | y :: ys, hp => simpa using hp)
            · intro ha'
              subst ha'
              have := hlast c' (by simp)
              rw [hc] at this
              simp [prevOK, this]

/-- A concrete block assigning an explicit null default. -/
def nullDefaultBlock : List Char := "\n  default = null\n".toList

/-- C5: the parsed `hasDefault` flag is true exactly when a
`default =` token occurrence (word-boundary, keyword, optional
whitespace, equals sign) matches somewhere in the block text,
regardless of the assigned value's content — in particular a block
with an explicit null default still counts as having a default. -/
theorem hasDefault_iff_occurrence :
    (∀ blockContent, hasDefaultIn blockContent = true ↔
      DefaultOccurrence blockContent) ∧
    hasDefaultIn nullDefaultBlock = true := by
  constructor
  · intro blockContent
    exact scanDefault_iff blockContent none
  · decide

/-- A leftmost-match search skips a region with no matches. -/
theorem scanFirst_append {α : Type} (f : List Char → Option α) :
    ∀ (pre post : List Char),
      (∀ n, n < pre.length → f ((pre ++ post).drop n) = none) →
      scanFirst f (pre ++ post) = scanFirst f post := by
  intro pre
  induction pre with
  | nil => intro post _; rfl
  | cons c cs ih =>
      intro post h
      have h0 : f (c :: (cs ++ post)) = none := by
        simpa using h 0 (by simp)
      show scanFirst f (c :: (cs ++ post)) = _
      rw [scanFirst, h0]
      exact ih post (fun n hn => by simpa using h (n + 1) (by simpa using hn))

/-- A leftmost-match search over a matchless text yields nothing. -/
theorem scanFirst_none {α : Type} (f : List Char → Option α) :
    ∀ (l : List Char), (∀ n, n < l.length → f (l.drop n) = none) →
      scanFirst f l = none := by
  intro l
  induction l with
  | nil => intro _; rfl
  | cons c cs ih =>
      intro h
      have h0 : f (c :: cs) = none := by simpa using h 0 (by simp)
      rw [scanFirst, h0]
      exact ih (fun n hn => by simpa using h (n + 1) (by simpa using hn))

/-- A leftmost-match search returns a hit at the very first position. -/
theorem scanFirst_head {α : Type} (f : List Char → Option α) (c : Char)
    (rest : List Char) (x : α) (h : f (c :: rest) = some x) :
    scanFirst f (c :: rest) = some x := by
  rw [scanFirst, h]

/-- Splitting `takeWhile`/`dropWhile` at the first failing element of
the left part. -/
theorem takeWhile_append_of_break (p : Char → Bool) :
    ∀ (a b : List Char), (∃ c ∈ a, p c = false) →
      (a ++ b).takeWhile p = a.takeWhile p ∧
      (a ++ b).dropWhile p = a.dropWhile p ++ b := by
  intro a
  induction a with
  | nil =>
      intro b h
      simp at h
  | cons c cs ih =>
      intro b h
      by_cases hc : p c
      · have hcs : ∃ x ∈ cs, p x = false := by
          rcases h with ⟨x, hx, hpx⟩
          rcases List.mem_cons.mp hx with rfl | hx'
          · rw [hc] at hpx
            exact absurd hpx (by simp)
          · exact ⟨x, hx', hpx⟩
        have := ih b hcs
        simp [List.takeWhile_cons, List.dropWhile_cons, hc, this.1, this.2]
      · simp [List.takeWhile_cons, List.dropWhile_cons, hc]

/-- Dropping while a predicate holds is idempotent. -/
theorem dropWhile_dropWhile (p : Char → Bool) (l : List Char) :
    (l.dropWhile p).dropWhile p = l.dropWhile p := by
  induction l with
  | nil => rfl
  | cons c cs ih =>
      by_cases hc : p c
      · simp [List.dropWhile_cons, hc, ih]
      · simp [List.dropWhile_cons, hc]

/-- Trimming is unaffected by first dropping the leading whitespace. -/
theorem trimChars_dropWhile (l : List Char) :
    trimChars (l.dropWhile isSpace) = trimChars l := by
  unfold trimChars
  rw [dropWhile_dropWhile]

/-- Dropping the length of the whitespace run is dropping the run. -/
theorem drop_takeWhile_length (p : Char → Bool) (l : List Char) :
    l.drop (l.takeWhile p).length = l.dropWhile p := by
  have h := List.takeWhile_append_dropWhile p l
  calc l.drop (l.takeWhile p).length
      = (l.takeWhile p ++ l.dropWhile p).drop (l.takeWhile p).length := by
        rw [h]
    _ = l.dropWhile p := List.drop_left _ _

/-- The collector stops exactly at the first terminator position. -/
theorem scanToBoundary_append :
    ∀ (a b : List Char),
      (∀ n, n < a.length → boundaryAt ((a ++ b).drop n) = false) →
      boundaryAt b = true →
      scanToBoundary (a ++ b) = some a := by
  intro a
  induction a with
  | nil =>
      intro b _ hb
      match b, hb with
      | c :: rest, hb =>
          show scanToBoundary (c :: rest) = some []
          rw [scanToBoundary, if_pos hb]
  | cons c cs ih =>
      intro b h hb
      have h0 : boundaryAt (c :: (cs ++ b)) = false := by
        simpa using h 0 (by simp)
      show scanToBoundary (c :: (cs ++ b)) = some (c :: cs)
      rw [scanToBoundary, if_neg (by simp [h0])]
      rw [ih b (fun n hn => by simpa using h (n + 1) (by simpa using hn)) hb]

/-- A text not starting with the validation keyword never opens a
validation match. -/
theorem valOpenAt_none {l : List Char}
    (h : kwValidation.isPrefixOf l = false) : valOpenAt l = none := by
  unfold valOpenAt
  rw [if_neg (by simp [h])]

/-- A text not starting with the condition keyword never matches the
condition pattern. -/
theorem condEqAt_none {l : List Char}
    (h : kwCondition.isPrefixOf l = false) : condEqAt l = none := by
  unfold condEqAt
  rw [if_neg (by simp [h])]

/-- A text not starting with the description keyword never matches the
description pattern. -/
theorem descrAt_none {l : List Char}
    (h : kwDescription.isPrefixOf l = false) : descrAt l = none := by
  unfold descrAt
  rw [if_neg (by simp [h])]

/-- A block with no occurrence of the default keyword scans to
`false` from any carried previous character. -/
theorem scanDefault_none_of :
    ∀ (l : List Char),
      (∀ i, i < l.length → kwDefault.isPrefixOf (l.drop i) = false) →
      ∀ prev, scanDefault prev l = false := by
  intro l
  induction l with
  | nil => intro _ prev; rfl
  | cons c rest ih =>
      intro h prev
      have h0 : kwDefault.isPrefixOf (c :: rest) = false := by
        simpa using h 0 (by simp)
      have hat : defaultAt (c :: rest) = false := by
        rw [defaultAt, h0]
        rfl
      simp only [scanDefault, hat, Bool.and_false, Bool.false_or]
      exact ih (fun i hi => by simpa using h (i + 1) (by simpa using hi)) (some c)

/-- Evaluation of the validation-open matcher at its pattern. -/
theorem valOpenAt_at (ws1 tail1 : List Char)
    (hw1 : ∀ c ∈ ws1, isSpace c = true) :
    valOpenAt (kwValidation ++ (ws1 ++ (lbrace :: tail1))) = some tail1 := by
  unfold valOpenAt
  rw [if_pos (by simp [prefixOf_append]), List.drop_left]
  rw [(takeWhile_all_append isSpace ws1 lbrace tail1 hw1 (by decide)).2]
  simp

/-- Evaluation of the condition matcher at its pattern. -/
theorem condEqAt_at (ws2 afterEq : List Char)
    (hw2 : ∀ c ∈ ws2, isSpace c = true) :
    condEqAt (kwCondition ++ (ws2 ++ ('=' :: afterEq))) = some afterEq := by
  unfold condEqAt
  rw [if_pos (by simp [prefixOf_append]), List.drop_left]
  rw [(takeWhile_all_append isSpace ws2 '=' afterEq hw2 (by decide)).2]
  rfl

/-- Evaluation of the terminator test at its pattern. -/
theorem boundaryAt_at (ws3 post : List Char)
    (hw3 : ∀ c ∈ ws3, isSpace c = true) :
    boundaryAt ('\n' :: (ws3 ++ (kwErrorMessage ++ post))) = true := by
  have hcons : kwErrorMessage ++ post =
      'e' :: ("rror_message".toList ++ post) := rfl
  show kwErrorMessage.isPrefixOf
      ((ws3 ++ (kwErrorMessage ++ post)).dropWhile isSpace) = true
  rw [hcons]
  rw [(takeWhile_all_append isSpace ws3 'e' ("rror_message".toList ++ post)
    hw3 (by decide)).2]
  rw [← hcons]
  exact prefixOf_append kwErrorMessage post

/-- Evaluation of the condition capture at a decomposed input whose
raw condition holds at least one non-whitespace character: the capture
is the condition with its leading whitespace consumed by the greedy
whitespace run. -/
theorem condCapture_decomp (condRaw ws3 post : List Char)
    (hw3 : ∀ c ∈ ws3, isSpace c = true)
    (hnws : ∃ c ∈ condRaw, isSpace c = false)
    (hnb : ∀ n, n < condRaw.length →
      boundaryAt ((condRaw ++ ('\n' :: (ws3 ++ (kwErrorMessage ++ post)))).drop n)
        = false) :
    condCapture (condRaw ++ ('\n' :: (ws3 ++ (kwErrorMessage ++ post)))) =
      some (condRaw.dropWhile isSpace) := by
  have hbreak := takeWhile_append_of_break isSpace condRaw
    ('\n' :: (ws3 ++ (kwErrorMessage ++ post))) hnws
  have hklen : (condRaw.takeWhile isSpace).length +
      (condRaw.dropWhile isSpace).length = condRaw.length := by
    have h := congrArg List.length
      (List.takeWhile_append_dropWhile isSpace condRaw)
    rwa [List.length_append] at h
  have htail : (condRaw ++ ('\n' :: (ws3 ++ (kwErrorMessage ++ post)))).drop
      ((condRaw ++ ('\n' :: (ws3 ++ (kwErrorMessage ++ post)))).takeWhile
        isSpace).length =
      condRaw.dropWhile isSpace ++ ('\n' :: (ws3 ++ (kwErrorMessage ++ post))) := by
    rw [drop_takeWhile_length, hbreak.2]
  have hscan : scanToBoundary
      (condRaw.dropWhile isSpace ++ ('\n' :: (ws3 ++ (kwErrorMessage ++ post)))) =
      some (condRaw.dropWhile isSpace) := by
    refine scanToBoundary_append _ _ ?_ (boundaryAt_at ws3 post hw3)
    intro n hn
    have hdw : condRaw.dropWhile isSpace ++
        ('\n' :: (ws3 ++ (kwErrorMessage ++ post))) =
        (condRaw ++ ('\n' :: (ws3 ++ (kwErrorMessage ++ post)))).drop
          (condRaw.takeWhile isSpace).length := by
      rw [List.drop_append_of_le_length (by omega)]
      rw [drop_takeWhile_length]
    rw [hdw, List.drop_drop]
    exact hnb ((condRaw.takeWhile isSpace).length + n) (by omega)
  simp only [condCapture]
  rw [htail, hscan]

/-- C6 (amended): the validation sub-block is located by pattern
matching — the leftmost `validation` followed by optional whitespace
and an opening brace — not by the balanced-brace technique; the parsed
condition is everything between the first `condition =` after that
opening brace and the earliest following terminator consisting of a
newline, optional whitespace and the `error_message` keyword (not an
arbitrary `error_message` occurrence), trimmed of surrounding
whitespace; and when no `validation` keyword occurs in the block the
validation attribute is null rather than an error. -/
theorem validationCondition_amended :
    (∀ blockContent : List Char,
      (∀ i, i < blockContent.length →
        kwValidation.isPrefixOf (blockContent.drop i) = false) →
      validationCondition blockContent = none) ∧
    (∀ pre ws1 mid ws2 condRaw ws3 post : List Char,
      (∀ c ∈ ws1, isSpace c = true) →
      (∀ c ∈ ws2, isSpace c = true) →
      (∀ c ∈ ws3, isSpace c = true) →
      (∃ c ∈ condRaw, isSpace c = false) →
      (∀ n, n < pre.length →
        valOpenAt ((pre ++ (kwValidation ++ (ws1 ++ (lbrace ::
          (mid ++ (kwCondition ++ (ws2 ++ ('=' :: (condRaw ++ ('\n' ::
            (ws3 ++ (kwErrorMessage ++ post)))))))))))).drop n) = none) →
      (∀ n, n < mid.length →
        condEqAt ((mid ++ (kwCondition ++ (ws2 ++ ('=' :: (condRaw ++ ('\n' ::
          (ws3 ++ (kwErrorMessage ++ post)))))))).drop n) = none) →
      (∀ n, n < condRaw.length →
        boundaryAt ((condRaw ++ ('\n' ::
          (ws3 ++ (kwErrorMessage ++ post)))).drop n) = false) →
      validationCondition (pre ++ (kwValidation ++ (ws1 ++ (lbrace ::
        (mid ++ (kwCondition ++ (ws2 ++ ('=' :: (condRaw ++ ('\n' ::
          (ws3 ++ (kwErrorMessage ++ post)))))))))))) =
        some (trimChars condRaw)) := by
  constructor
  · intro blockContent h
    unfold validationCondition
    rw [scanFirst_none valOpenAt blockContent
      (fun n hn => valOpenAt_none (h n hn))]
    rfl
  · intro pre ws1 mid ws2 condRaw ws3 post hw1 hw2 hw3 hnws hpre hmid hnb
    have hstep1 : scanFirst valOpenAt
        (pre ++ (kwValidation ++ (ws1 ++ (lbrace ::
          (mid ++ (kwCondition ++ (ws2 ++ ('=' :: (condRaw ++ ('\n' ::
            (ws3 ++ (kwErrorMessage ++ post)))))))))))) =
        some (mid ++ (kwCondition ++ (ws2 ++ ('=' :: (condRaw ++ ('\n' ::
          (ws3 ++ (kwErrorMessage ++ post)))))))) := by
      rw [scanFirst_append valOpenAt pre _ hpre]
      have hv := valOpenAt_at ws1
        (mid ++ (kwCondition ++ (ws2 ++ ('=' :: (condRaw ++ ('\n' ::
          (ws3 ++ (kwErrorMessage ++ post)))))))) hw1
      rw [show kwValidation ++ (ws1 ++ (lbrace ::
          (mid ++ (kwCondition ++ (ws2 ++ ('=' :: (condRaw ++ ('\n' ::
            (ws3 ++ (kwErrorMessage ++ post)))))))))) =
        'v' :: ("alidation".toList ++ (ws1 ++ (lbrace ::
          (mid ++ (kwCondition ++ (ws2 ++ ('=' :: (condRaw ++ ('\n' ::
            (ws3 ++ (kwErrorMessage ++ post))))))))))) from rfl] at hv ⊢
      exact scanFirst_head _ _ _ _ hv
    have hstep2 : scanFirst condEqAt
        (mid ++ (kwCondition ++ (ws2 ++ ('=' :: (condRaw ++ ('\n' ::
          (ws3 ++ (kwErrorMessage ++ post)))))))) =
        some (condRaw ++ ('\n' :: (ws3 ++ (kwErrorMessage ++ post)))) := by
      rw [scanFirst_append condEqAt mid _ hmid]
      have hc := condEqAt_at ws2
        (condRaw ++ ('\n' :: (ws3 ++ (kwErrorMessage ++ post)))) hw2
      rw [show kwCondition ++ (ws2 ++ ('=' :: (condRaw ++ ('\n' ::
          (ws3 ++ (kwErrorMessage ++ post)))))) =
        'c' :: ("ondition".toList ++ (ws2 ++ ('=' :: (condRaw ++ ('\n' ::
          (ws3 ++ (kwErrorMessage ++ post))))))) from rfl] at hc ⊢
      exact scanFirst_head _ _ _ _ hc
    unfold validationCondition
    rw [hstep1, Option.some_bind, hstep2, Option.some_bind,
      condCapture_decomp condRaw ws3 post hw3 hnws hnb]
    simp only [Option.map_some']
    rw [trimChars_dropWhile]

/-- Prefix of a concrete variable block before its validation part. -/
def cPre : List Char := "  type = string\n  ".toList

/-- Text between the validation opening brace and its condition. -/
def cMid : List Char := "\n    ".toList

/-- Raw condition text of the concrete validation block. -/
def cCond : List Char := " contains([s], var.s)".toList

/-- Whitespace after the validation keyword. -/
def cWs1 : List Char := [' ']

/-- Whitespace after the condition keyword. -/
def cWs2 : List Char := [' ']

/-- Whitespace between the newline and the error-message keyword. -/
def cWs3 : List Char := "  ".toList

/-- Text after the error-message keyword. -/
def cPost : List Char := " = \"bad\"".toList

/-- A concrete block with no validation keyword at all. -/
def cNoVal : List Char := "\n  type = string\n  default = 3\n".toList

theorem validationCondition_amended_witness :
    validationCondition (cPre ++ (kwValidation ++ (cWs1 ++ (lbrace ::
      (cMid ++ (kwCondition ++ (cWs2 ++ ('=' :: (cCond ++ ('\n' ::
        (cWs3 ++ (kwErrorMessage ++ cPost)))))))))))) =
      some (trimChars cCond) ∧
    validationCondition cNoVal = none :=
  ⟨validationCondition_amended.2 cPre cWs1 cMid cWs2 cCond cWs3 cPost
      (by decide) (by decide) (by decide) (by decide) (by decide) (by decide)
      (by decide),
   validationCondition_amended.1 cNoVal (by decide)⟩

/-- Collect characters up to (excluding) the first occurrence of the
`error_message` keyword. -/
def scanToKw : List Char → Option (List Char)
  | [] => none
  | c :: rest =>
    if kwErrorMessage.isPrefixOf (c :: rest) then some []
    else
      match scanToKw rest with
      | some cap => some (c :: cap)
      | none => none

/-- Condition extraction exactly as claim C6 states it: the validation
sub-block is located via the same balanced-brace technique as the
block extractor, scoped to start at the first occurrence of the
`validation` keyword inside the block; the condition equals everything
between `condition =` and the following `error_message` keyword,
exclusive, trimmed; absent when no `validation` keyword is found.
Stated for comparison against the source's `validationCondition`. -/
def claimValidationCondition (blockContent : List Char) : Option (List Char) :=
  (scanFirst (fun l => if kwValidation.isPrefixOf l then some l else none)
    blockContent).bind fun atVal =>
    (scanFirst condEqAt
      (pvbLoop (atVal.drop kwValidation.length) 0 false)).bind fun afterEq =>
      (scanToKw afterEq).map trimChars

/-- A block whose `error_message` keyword follows the condition on the
same line, with no intervening newline. -/
def cexValBlock : List Char :=
  "validation \x7b\n  condition = a < 5 error_message = \"m\"\n\x7d".toList

/-- C6 counterexample: on a block where `error_message` follows the
condition on the same line, the claim as stated yields the condition
`a < 5`, but the source's extraction — whose terminator requires a
newline before `error_message` — yields no validation at all. -/
theorem validation_same_line_cex :
    validationCondition cexValBlock = none ∧
    claimValidationCondition cexValBlock = some "a < 5".toList := by
  constructor
  · decide
  · decide

/-- C7: when the text from the first opening brace onward never brings
the brace counter back to zero, the block extractor returns the whole
accumulated suffix, ending at end-of-text, rather than raising; and
downstream field parsing of such a truncated block is total, yielding
the documented defaults — `hasDefault` false, validation null, empty
description — whenever the corresponding patterns do not occur in it. -/
theorem parseVariableBlock_truncated (content : List Char) (startIndex : Nat)
    (pre tl nm : List Char)
    (hsplit : content.drop startIndex = pre ++ (lbrace :: tl))
    (hpre : ∀ c ∈ pre, c ≠ lbrace)
    (hnz : ∀ n, n ≤ tl.length → depth pre + 1 + depth (tl.take n) ≠ 0) :
    parseVariableBlock content startIndex = lbrace :: tl ∧
    ((∀ i, i < (lbrace :: tl).length →
        kwDefault.isPrefixOf ((lbrace :: tl).drop i) = false) →
      (mkVariable nm (lbrace :: tl)).hasDefault = false) ∧
    ((∀ i, i < (lbrace :: tl).length →
        kwValidation.isPrefixOf ((lbrace :: tl).drop i) = false) →
      (mkVariable nm (lbrace :: tl)).validation = none) ∧
    ((∀ i, i < (lbrace :: tl).length →
        kwDescription.isPrefixOf ((lbrace :: tl).drop i) = false) →
      (mkVariable nm (lbrace :: tl)).description = []) := by
  refine ⟨?_, ?_, ?_, ?_⟩
  · unfold parseVariableBlock
    rw [hsplit, pvbLoop_false_dropWhile]
    have htw := takeWhile_all_append (fun c => decide (c ≠ lbrace)) pre
      lbrace tl (fun c hc => by simpa using hpre c hc) (by simp)
    rw [htw.1, htw.2, pvbLoop_enter]
    have h0 := hnz 0 (by omega)
    rw [List.take_zero, depth_nil] at h0
    rw [if_neg (by omega)]
    rw [pvbLoop_no_stop tl (0 + depth pre + 1) ?_]
    intro n h1 h2
    have := hnz n h2
    omega
  · intro h
    exact scanDefault_none_of _ h none
  · intro h
    show validationCondition (lbrace :: tl) = none
    unfold validationCondition
    rw [scanFirst_none valOpenAt _ (fun n hn => valOpenAt_none (h n hn))]
    rfl
  · intro h
    show descriptionIn (lbrace :: tl) = []
    unfold descriptionIn
    rw [scanFirst_none descrAt _ (fun n hn => descrAt_none (h n hn))]
    rfl

/-- A concrete file text whose variable block is never closed. -/
def truncContent : List Char := "variable \"x\" \x7b\n  type = string\n".toList

/-- The truncated tail after that block's opening brace. -/
def truncTl : List Char := "\n  type = string\n".toList

theorem parseVariableBlock_truncated_witness :
    parseVariableBlock truncContent 13 = lbrace :: truncTl ∧
    (mkVariable ['x'] (lbrace :: truncTl)).hasDefault = false ∧
    (mkVariable ['x'] (lbrace :: truncTl)).validation = none ∧
    (mkVariable ['x'] (lbrace :: truncTl)).description = [] := by
  have h := parseVariableBlock_truncated truncContent 13 [] truncTl ['x']
    (by decide) (by decide) (by decide)
  exact ⟨h.1, h.2.1 (by decide), h.2.2.1 (by decide), h.2.2.2 (by decide)⟩

/-- A canonical variable header: the keyword, one space, the quoted
name, and the opening brace. -/
def headerFor (nm : List Char) : List Char :=
  kwVariable ++ (' ' :: ('"' :: (nm ++ ('"' :: [lbrace]))))

theorem headerFor_append (nm rest : List Char) :
    headerFor nm ++ rest =
      kwVariable ++ (' ' :: ('"' :: (nm ++ ('"' :: (lbrace :: rest))))) := by
  simp [headerFor]

/-- The header matcher succeeds on a canonical header with a nonempty
quote-free name, returning that name and the suffix at the brace. -/
theorem headerAt_full (nm rest : List Char) (h1 : nm ≠ [])
    (h2 : ∀ c ∈ nm, c ≠ '"') :
    headerAt (kwVariable ++ (' ' :: ('"' :: (nm ++ ('"' :: (lbrace :: rest)))))) =
      some (nm, lbrace :: rest) := by
  rcases nm with _ | ⟨n1, nt⟩
  · exact absurd rfl h1
  · have htk := takeWhile_all_append (fun c => decide (c ≠ '"'))
      (n1 :: nt) '"' (lbrace :: rest)
      (fun c hc => by simpa using h2 c hc) (by simp)
    show (match ((n1 :: nt) ++ ('"' :: (lbrace :: rest))).takeWhile
        (fun c => c ≠ '"') with
      | [] => none
      | m1 :: mt =>
        match ((n1 :: nt) ++ ('"' :: (lbrace :: rest))).drop
            (m1 :: mt).length with
        | q2 :: r3 =>
          if q2 = '"' then
            match r3.dropWhile isSpace with
            | c :: r4 => if c = lbrace then some (m1 :: mt, c :: r4) else none
            | [] => none
          else none
        | [] => none) = some (n1 :: nt, lbrace :: rest)
    rw [htk.1]
    show (match ((n1 :: nt) ++ ('"' :: (lbrace :: rest))).drop
        (n1 :: nt).length with
      | q2 :: r3 =>
        if q2 = '"' then
          match r3.dropWhile isSpace with
          | c :: r4 => if c = lbrace then some (n1 :: nt, c :: r4) else none
          | [] => none
        else none
      | [] => none) = some (n1 :: nt, lbrace :: rest)
    rw [List.drop_left]
    rfl

/-- Assemble a file text from filler/name segments: each segment
contributes arbitrary filler text followed by a canonical variable
header, with a final trailing filler. -/
def assemble : List (List Char × List Char) → List Char → List Char
  | [], fin => fin
  | (filler, nm) :: rest, fin => filler ++ (headerFor nm ++ assemble rest fin)

/-- The discovery pairs an assembled text should produce: one per
segment, in segment order, each carrying the segment's name and the
suffix of the text starting at that header's opening brace. -/
def expectedPairs : List (List Char × List Char) → List Char →
    List (List Char × List Char)
  | [], _ => []
  | (_, nm) :: rest, fin =>
    (nm, lbrace :: assemble rest fin) :: expectedPairs rest fin

/-- No stray header matches: within every filler region of an
assembled text (and in the trailing filler) the header matcher fails
at every position. -/
def NoStray : List (List Char × List Char) → List Char → Prop
  | [], fin => ∀ n, n < fin.length → headerAt (fin.drop n) = none
  | (filler, nm) :: rest, fin =>
      (∀ n, n < filler.length →
        headerAt ((filler ++ (headerFor nm ++ assemble rest fin)).drop n)
          = none) ∧
      NoStray rest fin

instance instDecNoStray : ∀ (segs : List (List Char × List Char))
    (fin : List Char), Decidable (NoStray segs fin)
  | [], fin => by
      unfold NoStray
      infer_instance
  | (filler, nm) :: rest, fin => by
      unfold NoStray
      haveI : Decidable (NoStray rest fin) := instDecNoStray rest fin
      infer_instance

/-- The discovery loop passes over a matchless region. -/
theorem extractLoop_skip : ∀ (pre post : List Char),
    (∀ n, n < pre.length → headerAt ((pre ++ post).drop n) = none) →
    extractLoop (pre ++ post) = extractLoop post := by
  intro pre
  induction pre with
  | nil => intro post _; rfl
  | cons c cs ih =>
      intro post h
      have h0 : headerAt (c :: (cs ++ post)) = none := by
        simpa using h 0 (by simp)
      show extractLoop (c :: (cs ++ post)) = _
      rw [extractLoop_cons, h0]
      exact ih post (fun n hn => by simpa using h (n + 1) (by simpa using hn))

/-- The discovery loop finds nothing in a matchless text. -/
theorem extractLoop_none : ∀ (l : List Char),
    (∀ n, n < l.length → headerAt (l.drop n) = none) →
    extractLoop l = [] := by
  intro l
  induction l with
  | nil => intro _; rfl
  | cons c cs ih =>
      intro h
      have h0 : headerAt (c :: cs) = none := by
        simpa using h 0 (by simp)
      rw [extractLoop_cons, h0]
      exact ih (fun n hn => by simpa using h (n + 1) (by simpa using hn))

/-- C8 (amended): header discovery locates the occurrences of the
pattern `variable "name" {` anywhere in the text — the pattern is not
line-anchored, so a match need not start a line — and yields one
(name, block-start) pair per occurrence, including multiple
declarations with the same keyword in one text, produced in file-text
order from top to bottom. Stated over texts assembled from filler
segments and canonical headers, with no stray matches inside the
fillers. -/
theorem header_discovery_order :
    ∀ (segs : List (List Char × List Char)) (fin : List Char),
      (∀ s ∈ segs, s.2 ≠ [] ∧ ∀ c ∈ s.2, c ≠ '"') →
      NoStray segs fin →
      extractLoop (assemble segs fin) = expectedPairs segs fin := by
  intro segs
  induction segs with
  | nil =>
      intro fin _ hstray
      simp only [NoStray] at hstray
      exact extractLoop_none fin hstray
  | cons s rest ih =>
      obtain ⟨filler, nm⟩ := s
      intro fin hnames hstray
      simp only [NoStray] at hstray
      obtain ⟨hfill, hrest⟩ := hstray
      show extractLoop (filler ++ (headerFor nm ++ assemble rest fin)) = _
      rw [extractLoop_skip filler _ hfill, headerFor_append]
      have hh := headerAt_full nm (assemble rest fin)
        (hnames (filler, nm) (by simp)).1 (hnames (filler, nm) (by simp)).2
      rw [show kwVariable ++ (' ' :: ('"' :: (nm ++ ('"' :: (lbrace ::
          assemble rest fin))))) =
        'v' :: ("ariable".toList ++ (' ' :: ('"' :: (nm ++ ('"' :: (lbrace ::
          assemble rest fin)))))) from rfl] at hh ⊢
      rw [extractLoop_cons, hh]
      show (nm, lbrace :: assemble rest fin) :: extractLoop (assemble rest fin)
        = _
      rw [ih fin (fun s hs => hnames s (by simp [hs])) hrest]
      rfl

/-- Filler before the first witness declaration. -/
def wFill1 : List Char := "# intro\n".toList

/-- Filler between the witness declarations: the first declaration's
block body and some free text. -/
def wFill2 : List Char := "\n  default = 1\n\x7d\n".toList

/-- Trailing filler closing the second declaration's block. -/
def wFin : List Char := "\n\x7d\n".toList

/-- Witness segments: two declarations with the same keyword. -/
def wSegs : List (List Char × List Char) :=
  [(wFill1, "a".toList), (wFill2, "b".toList)]

theorem header_discovery_order_witness :
    (∀ s ∈ wSegs, s.2 ≠ [] ∧ ∀ c ∈ s.2, c ≠ '"') ∧
    NoStray wSegs wFin ∧
    extractLoop (assemble wSegs wFin) = expectedPairs wSegs wFin :=
  ⟨by decide, by decide, header_discovery_order wSegs wFin
    (by decide) (by decide)⟩

/-- Fuel-indexed header discovery as claim C8 states it: matches are
accepted only when they start a line (at the start of the text or
right after a newline), with the same non-overlapping continuation as
the global-regex iteration. Stated for comparison against the
source's discovery loop. -/
def anchoredLoopF : Nat → Option Char → List Char → List (List Char)
  | 0, _, _ => []
  | _ + 1, _, [] => []
  | fuel + 1, prev, c :: rest =>
    if prev = none ∨ prev = some '\n' then
      match headerAt (c :: rest) with
      | some (nm, br) => nm :: anchoredLoopF fuel (some lbrace) (br.drop 1)
      | none => anchoredLoopF fuel (some c) rest
    else anchoredLoopF fuel (some c) rest

/-- Names discovered by the line-anchored reading of claim C8. -/
def anchoredNames (content : List Char) : List (List Char) :=
  anchoredLoopF content.length none content

/-- A text whose only header occurrence starts mid-line, after a
comment marker. -/
def cexHeaderContent : List Char := "# variable \"a\" \x7b\x7d".toList

/-- C8 counterexample: the source's discovery finds the mid-line
header occurrence, while a line-anchored pattern, as the claim states
it, finds nothing. -/
theorem header_not_line_anchored_cex :
    (extractLoop cexHeaderContent).map Prod.fst = ["a".toList] ∧
    anchoredNames cexHeaderContent = [] := by
  constructor
  · decide
  · decide

/-- A UsageGroup: one entry of the external reply's `conditionalUsage`
array consumed by `generateReadme` in generate-readme-v2.js — a human
label, the trigger variable's name, one concrete trigger value, and
the conditional variable names required under that value. The source
calls the last field `variables`, a word Lean reserves. -/
structure UsageGroup where
  name : List Char
  triggerVar : List Char
  triggerValue : List Char
  varNames : List (List Char)
deriving DecidableEq

instance : DecidableRel (fun a b : List Char => a ≤ b) :=
  fun a b => inferInstanceAs (Decidable (a ≤ b))

/-- The stable `sort((a, b) => a.localeCompare(b))` over names in
`generateReadme` of generate-readme-v2.js, embedded like
`sortVarsByName` as a stable insertion sort by code-point order. -/
def sortNames (l : List (List Char)) : List (List Char) :=
  List.insertionSort (fun a b : List Char => a ≤ b) l

theorem mem_sortNames (a : List Char) (l : List (List Char)) :
    a ∈ sortNames l ↔ a ∈ l :=
  (List.perm_insertionSort _ l).mem_iff

/-- The `allVars` list of one conditional-usage section in
generate-readme-v2.js: the required names, then the trigger names,
then the group's conditional names (duplicates kept, no
de-duplication), sorted alphabetically. -/
def condUsageNames (g : UsageGroup) (req trig : List Variable) :
    List (List Char) :=
  sortNames ((req.map Variable.name) ++ ((trig.map Variable.name) ++
    g.varNames))

/-- The value rendered on one conditional-usage line of
generate-readme-v2.js: the quoted concrete trigger value when the name
equals the group's trigger variable, otherwise the quoted placeholder
derived from the name. -/
def condValue (g : UsageGroup) (nm : List Char) : List Char :=
  if nm = g.triggerVar then '"' :: (g.triggerValue ++ "\"".toList)
  else '"' :: (placeholderValue nm ++ "\"".toList)

/-- The trailing comment of one conditional-usage line of
generate-readme-v2.js: present exactly when the name is in the group's
conditional-name list, stating the trigger name and its value. -/
def condComment (g : UsageGroup) (nm : List Char) : List Char :=
  if nm ∈ g.varNames then
    "  # Required when ".toList ++ (g.triggerVar ++ (" = \"".toList ++
      (g.triggerValue ++ "\"".toList)))
  else []

/-- One rendered conditional-usage line of generate-readme-v2.js, with
the name padded to the group's column width. -/
def condLine (g : UsageGroup) (maxLen : Nat) (nm : List Char) : List Char :=
  "  ".toList ++ padEnd nm maxLen ++ " = ".toList ++ condValue g nm ++
    condComment g nm

/-- The `varsBlock` of one conditional-usage section in
generate-readme-v2.js: one line per display name, newline-joined, the
column width computed across this group's full variable set (the
enclosing section template only substitutes the module name and source
URL around this block; the source's unguarded spread-max over an empty
name list yields an empty block either way). -/
def renderConditionalUsage (g : UsageGroup) (req trig : List Variable) :
    List Char :=
  joinNewline ((condUsageNames g req trig).map
    (condLine g ((condUsageNames g req trig).foldr
      (fun nm acc => max nm.length acc) 0)))

/-- C4: in a conditional-usage render, the line whose name equals the
group's trigger declaration shows the group's concrete trigger value
instead of a placeholder; every name in the group's conditional-name
list is part of the displayed set and contributes a rendered line —
also a name absent from the locally classified Conditional category,
which is rendered rather than dropped or treated as fatal — and its
line carries the trailing annotation naming the trigger and its value;
every other line uses the deterministic placeholder rule. -/
theorem conditional_usage_lines (g : UsageGroup) (req trig : List Variable)
    (maxLen : Nat) (nm : List Char) :
    (nm = g.triggerVar →
      condLine g maxLen nm = "  ".toList ++ padEnd nm maxLen ++
        " = ".toList ++ ('"' :: (g.triggerValue ++ "\"".toList)) ++
        condComment g nm) ∧
    (nm ∈ g.varNames → nm ∈ condUsageNames g req trig ∧
      condLine g ((condUsageNames g req trig).foldr
          (fun nm acc => max nm.length acc) 0) nm ∈
        (condUsageNames g req trig).map
          (condLine g ((condUsageNames g req trig).foldr
            (fun nm acc => max nm.length acc) 0))) ∧
    (nm ∈ g.varNames → ∃ s, condLine g maxLen nm =
      s ++ ("  # Required when ".toList ++ (g.triggerVar ++
        (" = \"".toList ++ (g.triggerValue ++ "\"".toList))))) ∧
    (nm ≠ g.triggerVar →
      condLine g maxLen nm = "  ".toList ++ padEnd nm maxLen ++
        " = ".toList ++ ('"' :: (placeholderValue nm ++ "\"".toList)) ++
        condComment g nm) := by
  have hmem : nm ∈ g.varNames → nm ∈ condUsageNames g req trig := by
    intro h
    unfold condUsageNames
    rw [mem_sortNames]
    simp [h]
  refine ⟨?_, ?_, ?_, ?_⟩
  · intro h
    unfold condLine condValue
    rw [if_pos h]
  · intro h
    exact ⟨hmem h, List.mem_map_of_mem _ (hmem h)⟩
  · intro h
    refine ⟨"  ".toList ++ padEnd nm maxLen ++ " = ".toList ++
      condValue g nm, ?_⟩
    unfold condLine condComment
    rw [if_pos h]
  · intro h
    unfold condLine condValue
    rw [if_neg h]

/-- Concrete witness group: the second conditional name is absent from
any classified category. -/
def gS3 : UsageGroup :=
  { name := "S3 Backup".toList
    triggerVar := "backup_provider".toList
    triggerValue := "s3".toList
    varNames := ["backup_s3_bucket".toList, "not_classified".toList] }

/-- Concrete required declaration for the C4 witness. -/
def vReq4 : Variable :=
  { name := "bucket_name".toList, hasDefault := false, validation := none,
    description := [] }

/-- Concrete trigger declaration for the C4 witness. -/
def vTrig4 : Variable :=
  { name := "backup_provider".toList, hasDefault := false,
    validation := some "contains([s3], var.backup_provider)".toList,
    description := [] }

theorem conditional_usage_lines_witness :
    condLine gS3 16 gS3.triggerVar = "  ".toList ++
      padEnd gS3.triggerVar 16 ++ " = ".toList ++
      ('"' :: (gS3.triggerValue ++ "\"".toList)) ++
      condComment gS3 gS3.triggerVar ∧
    "not_classified".toList ∈ condUsageNames gS3 [vReq4] [vTrig4] ∧
    (∃ s, condLine gS3 16 "not_classified".toList =
      s ++ ("  # Required when ".toList ++ (gS3.triggerVar ++
        (" = \"".toList ++ (gS3.triggerValue ++ "\"".toList))))) ∧
    condLine gS3 16 "bucket_name".toList = "  ".toList ++
      padEnd "bucket_name".toList 16 ++ " = ".toList ++
      ('"' :: (placeholderValue "bucket_name".toList ++ "\"".toList)) ++
      condComment gS3 "bucket_name".toList :=
  ⟨(conditional_usage_lines gS3 [vReq4] [vTrig4] 16 gS3.triggerVar).1 rfl,
   ((conditional_usage_lines gS3 [vReq4] [vTrig4] 16
     "not_classified".toList).2.1 (by decide)).1,
   (conditional_usage_lines gS3 [vReq4] [vTrig4] 16
     "not_classified".toList).2.2.1 (by decide),
   (conditional_usage_lines gS3 [vReq4] [vTrig4] 16
     "bucket_name".toList).2.2.2 (by decide)⟩

/-- An optional declaration for the C1 witness. -/
def vOpt1 : Variable :=
  { name := "force_destroy".toList, hasDefault := true, validation := none,
    description := [] }

/-- A conditional declaration for the C1 witness. -/
def vCond1 : Variable :=
  { name := "glacier_days".toList, hasDefault := true,
    validation := some "x".toList, description := [] }

theorem classify_decision_table_witness :
    (requiredVars [vOpt1, vCond1]).length + (triggerVars [vOpt1, vCond1]).length
      + (conditionalVars [vOpt1, vCond1]).length
      + (optionalVars [vOpt1, vCond1]).length = 2 ∧
    (vOpt1 ∈ optionalVars [vOpt1, vCond1] ↔
      vOpt1 ∈ ([vOpt1, vCond1] : List Variable) ∧ vOpt1.hasDefault = true ∧
        vOpt1.validation = none) := by
  have h := classify_decision_table [vOpt1, vCond1] vOpt1
  exact ⟨by simpa using h.1, h.2.2.2.2.1⟩

theorem hasDefault_iff_occurrence_witness :
    (hasDefaultIn nullDefaultBlock = true ↔
      DefaultOccurrence nullDefaultBlock) ∧
    hasDefaultIn nullDefaultBlock = true :=
  ⟨hasDefault_iff_occurrence.1 nullDefaultBlock, hasDefault_iff_occurrence.2⟩

/-- Concrete input text for the C10 witness. -/
def safeContent : List Char := "pre \x7b a \x7d post".toList

theorem parseVariableBlock_safe_witness :
    (∃ m : Nat, parseVariableBlock safeContent 0 =
      ((safeContent.drop 0).dropWhile (fun c => c ≠ lbrace)).take m) ∧
    parseVariableBlock (safeContent.filter (fun c => c ≠ lbrace)) 0 = [] :=
  parseVariableBlock_safe safeContent 0

end TfReadme
